import Mathlib

/-!
Verification of the hashive single-file key/value store (Go repository
mkch/hashive) against its specification, via a shallow embedding of
`internal/impl/impl.go` and `hashive.go` into Lean.

Conventions of the embedding:
* Byte streams are `List Nat` whose elements are kept below 256 by
  construction (every write site applies the same truncation the Go code
  performs, `% 256` at each emitted byte).
* Go `uint64` values are `Nat` with explicit `% 2 ^ 64` where the Go code
  can overflow; Go `int64` values are `Int` with an explicit wrap-around
  function `wrap64` at the sites where Go two's-complement overflow is
  observable.
* The seekable reader (`byteReadSeeker` over `bytes.Reader`, the
  `bufferSize == 0` path of `NewBufByteReadSeeker`) is modelled as a state
  monad over the current position; the data is immutable, as the files are.
* Fallible Go code returns `Except Err`; each `Err` constructor is mapped
  to the concrete Go error construction in a comment.
-/

namespace Hashive

/-- Errors of the reader/writer.  The constructors mirror the distinct Go
error values that the repository's control flow can distinguish:
* `io`: any I/O failure (`io.EOF`, `io.ErrUnexpectedEOF`, a negative-position
  seek error from `bytes.Reader.Seek`, ...).
* `invalidType`: the plain `fmt.Errorf("... invalid type %v", t)` errors
  (note: built with `%v`, so they do NOT wrap a `*TypeError`).
* `typeErr`: the one error built with `%w` around `&TypeError{t}`
  (in `ReadArray`); `errors.As(err, &typeErr)` succeeds exactly on this one.
* `bounds len idx`: `*BoundsError{Length, Index}` from `Array.Index`.
* `notFound`: `ErrNotFound`.
* `format`: other malformed-payload failures (`invalid size`,
  `invalid length`, `invalid offset`, `invalid value` for bool); the Go code
  uses distinct message strings but never branches on them.
* `fuel`: artifact of the embedding's termination fuel for the recursive
  reader; unreachable for the fuel bounds used in every theorem below. -/
inductive Err where
  | io : Err
  | invalidType : Nat → Err
  | typeErr : Nat → Err
  | bounds : Int → Int → Err
  | notFound : Err
  | format : Err
  | fuel : Err
  deriving DecidableEq, Repr

/-- Two's-complement wrap of an integer into the `int64` range,
modelling Go's defined signed-overflow behaviour. -/
def wrap64 (x : Int) : Int :=
  (x + 2 ^ 63) % 2 ^ 64 - 2 ^ 63

/-- Go conversion `int64(u)` of a `uint64` value `u < 2^64`. -/
def u64ToI64 (u : Nat) : Int :=
  if u < 2 ^ 63 then (u : Int) else (u : Int) - 2 ^ 64

/-- Go conversion `uint64(n)` of an `int64` value (two's complement bits). -/
def i64ToU64 (n : Int) : Nat :=
  (n % 2 ^ 64).toNat

/-- Little-endian byte serialization: `putLE k n` is the `k` low-order
bytes of `n`, least significant first (what
`binary.LittleEndian.PutUintNN` followed by truncation to `k` bytes emits). -/
def putLE : Nat → Nat → List Nat
  | 0, _ => []
  | k + 1, n => n % 256 :: putLE k (n / 256)

/-- Little-endian byte deserialization, zero-extended (what
`binary.LittleEndian.UintNN` of a zero-padded buffer computes). -/
def getLE : List Nat → Nat
  | [] => 0
  | b :: bs => b + 256 * getLE bs

/-- `fixedUintSize` from impl.go: the minimum byte count to store `n`
(the Go comparison cascade against `0xFF…FF` literals). -/
def fixedUintSize (n : Nat) : Nat :=
  if n > 0xFFFFFFFFFFFFFF then 8
  else if n > 0xFFFFFFFFFFFF then 7
  else if n > 0xFFFFFFFFFF then 6
  else if n > 0xFFFFFFFF then 5
  else if n > 0xFFFFFF then 4
  else if n > 0xFFFF then 3
  else if n > 0xFF then 2
  else 1

/-- `writeFixedUint` from impl.go: pack `n` little-endian into exactly
`size` bytes, truncating high bytes.  The Go function additionally returns
an `invalid size` error for `size ∉ {1,…,8}`; every call site in the
repository passes a size in `{1,…,8}` (the chosen offset width), so the
embedding is total and the valid-size condition appears as a hypothesis of
the lemmas that need it. -/
def writeFixedUint (n size : Nat) : List Nat :=
  putLE size n

/-- `writeUintValue` from impl.go: the variable-length encoding of a
`uint64`.  One byte for `n ≤ 127`; otherwise the prefix byte `256 - K`
(written `^byte(K)+1` in Go) followed by the `K` little-endian bytes of
`n`, with the same threshold cascade as the source. -/
def writeUintValue (n : Nat) : List Nat :=
  if n ≤ 127 then [n]
  else if n ≤ 0xFF then 255 :: putLE 1 n
  else if n ≤ 0xFFFF then 254 :: putLE 2 n
  else if n ≤ 0xFFFFFF then 253 :: putLE 3 n
  else if n ≤ 0xFFFFFFFF then 252 :: putLE 4 n
  else if n ≤ 0xFFFFFFFFFF then 251 :: putLE 5 n
  else if n ≤ 0xFFFFFFFFFFFF then 250 :: putLE 6 n
  else if n ≤ 0xFFFFFFFFFFFFFF then 249 :: putLE 7 n
  else 248 :: putLE 8 n

/-- `int2Uint` from impl.go, on `int64` values modelled as `Int`:
`(^uint64(n) << 1) | 1` when `n < 0`, else `uint64(n) << 1`; shifts and
the complement are the Go `uint64` operations, hence the explicit
`% 2 ^ 64`. -/
def int2Uint (n : Int) : Nat :=
  if n < 0 then ((2 ^ 64 - 1 - i64ToU64 n) * 2) % 2 ^ 64 ||| 1
  else (i64ToU64 n * 2) % 2 ^ 64

/-- `uint2Int` from impl.go.  Note the faithful `||| 0x80000000` in the
odd branch: the Go source computes `int64(^(u >> 1) | 0x80000000)`. -/
def uint2Int (u : Nat) : Int :=
  if u % 2 = 1 then u64ToI64 ((2 ^ 64 - 1 - u / 2) ||| 0x80000000)
  else u64ToI64 (u / 2)

/-! ### The reader

The readers of impl.go take a `ByteReadSeeker`; the repository
instantiates it with `byteReadSeeker` wrapping a `bytes.Reader`
(`bufferSize == 0`), or with the buffered variant modelled separately
below for the buffered-seeker claim.  Over an immutable byte list the
reader is a state monad on the current position. -/

/-- Reader monad: data, position in, `Except` of result and position out. -/
def RM (α : Type) : Type :=
  List Nat → Nat → Except Err (α × Nat)

instance : Monad RM where
  pure a := fun _ p => .ok (a, p)
  bind m f := fun D p =>
    match m D p with
    | .ok (a, q) => f a D q
    | .error e => .error e

/-- Failing reader (a Go function returning a non-nil error). -/
def rmFail (e : Err) : RM α := fun _ _ => .error e

/-- `ReadByte` of `byteReadSeeker`: one byte via `Read(buf[:1])`;
at end of data the `bytes.Reader` returns `io.EOF`. -/
def readByte : RM Nat := fun D p =>
  match D[p]? with
  | some b => .ok (b, p + 1)
  | none => .error .io

/-- `io.ReadFull(r, buf[:k])`: `k` bytes or an I/O error on a short read. -/
def readBytes (k : Nat) : RM (List Nat) := fun D p =>
  if p + k ≤ D.length then .ok ((D.drop p).take k, p + k)
  else .error .io

/-- `Seek(offset, io.SeekStart)` on a `bytes.Reader`: a negative target
position is an error, otherwise the position is set (possibly past the
end; subsequent reads fail there). -/
def seekTo (target : Int) : RM Unit := fun _ _ =>
  if target < 0 then .error .io else .ok ((), target.toNat)

/-- `Seek(0, io.SeekCurrent)`: report the current position. -/
def tellPos : RM Nat := fun _ p => .ok (p, p)

/-- `readFixedUint` from impl.go: `io.ReadFull` into `buf[:size]`, then
little-endian decode by the size switch.  A size outside `{0,…,8}` makes
the Go code panic on the slice bound (and size `0` falls into the
`invalid size` default); both are modelled as a `format` error. -/
def readFixedUint (size : Nat) : RM Nat :=
  if 1 ≤ size ∧ size ≤ 8 then do
    let bs ← readBytes size
    pure (getLE bs)
  else rmFail .format

/-- `readUintValue` from impl.go: first byte `b0`; values up to 127 are
immediate, otherwise `length = -b0` (byte arithmetic) continuation bytes. -/
def readUintValue : RM Nat := do
  let b0 ← readByte
  if b0 ≤ 127 then pure b0
  else readFixedUint ((256 - b0) % 256)

/-- `readIntValue` from impl.go. -/
def readIntValue : RM Int := do
  let u ← readUintValue
  pure (uint2Int u)

/-- `readBoolValue` from impl.go: varint that must be 0 or 1. -/
def readBoolValue : RM Bool := do
  let n ← readUintValue
  if n = 0 then pure false
  else if n = 1 then pure true
  else rmFail .format

/-- `readBinaryValue` from impl.go: varint length (rejected above
`math.MaxInt`), then that many literal bytes. -/
def readBinaryValue : RM (List Nat) := do
  let len ← readUintValue
  if len > 2 ^ 63 - 1 then rmFail .format
  else readBytes len


/-! ### Type markers, hashing, primes -/

/-- The `typ` constants of impl.go (`iota` order). -/
def typeNull : Nat := 0
def typeInt : Nat := 1
def typeUint : Nat := 2
def typeBool : Nat := 3
def typeString : Nat := 4
def typeFloat : Nat := 5
def typeBinary : Nat := 6
def typeGob : Nat := 7
def typeArray : Nat := 8
def typeObject : Nat := 9

/-- `newTypeMarker` from impl.go: `typeMarker(t) | typeMarker(size<<4)`
in byte arithmetic. -/
def newTypeMarker (t size : Nat) : Nat :=
  t ||| (size * 16 % 256)

/-- `typeMarker.Type`: `t & 0x0F`. -/
def markerType (m : Nat) : Nat := m % 16

/-- `typeMarker.OffsetSize`: `byte(t >> 4)` on a byte-valued marker. -/
def markerOffsetSize (m : Nat) : Nat := m % 256 / 16

/-- One step of 64-bit FNV-1a (`hash/fnv`): xor the byte, multiply by the
prime, in `uint64` arithmetic. -/
def fnv1aStep (h b : Nat) : Nat :=
  ((h ^^^ b) * 0x100000001b3) % 2 ^ 64

/-- `stringHash` from impl.go: 64-bit FNV-1a over the key bytes, with the
standard offset basis. -/
def stringHash (s : List Nat) : Nat :=
  s.foldl fnv1aStep 0xcbf29ce484222325

/-- `nearestPrime` from the prime file of the impl package: 2 for
`n ≤ 2`, otherwise the upward scan `i = n, n+1, …` returns the first
prime (`ProbablyPrime(12)` is exact below `2^64`).  The scan is modelled
as the least prime `≥ n`; the Go downward fallback runs only if no prime
exists up to `math.MaxInt`, which by Bertrand's postulate cannot happen
for any `n` reachable from `WriteObject` (`n ≤ 2^62`), so it is not
modelled. -/
def nearestPrime (n : Nat) : Nat :=
  if n ≤ 2 then 2
  else Nat.find (Nat.exists_infinite_primes n)

/-! ### The value model

`Val` models the Go `any` trees accepted by `WriteValue` after the
width collapse: all signed integers as `Int` (`int64`), all unsigned as
`Nat` (`uint64`), strings and `[]byte` as byte lists, `float64` by its
IEEE-754 bit pattern (`math.Float64bits` is a bijection; no float
arithmetic occurs anywhere in the codec), gob payloads as their encoded
bytes, and `map[string]any` as an association list (one fixed iteration
order of the Go map). -/

inductive Val where
  | vNull : Val
  | vInt : Int → Val
  | vUint : Nat → Val
  | vBool : Bool → Val
  | vStr : List Nat → Val
  | vFloat : Nat → Val
  | vBin : List Nat → Val
  | vGob : List Nat → Val
  | vArr : List Val → Val
  | vObj : List (List Nat × Val) → Val
  deriving Repr

/-- `reverseBytes` from impl.go, verbatim shift/mask structure
(`uint64` operations; no term exceeds `2^64` for byte-built inputs). -/
def reverseBytes (n : Nat) : Nat :=
  ((n >>> 56) &&& 0xFF) |||
  ((n >>> 40) &&& (0xFF <<< 8)) |||
  ((n >>> 24) &&& (0xFF <<< 16)) |||
  ((n >>> 8) &&& (0xFF <<< 24)) |||
  ((n &&& 0xFF) <<< 56) |||
  ((n &&& 0xFF00) <<< 40) |||
  ((n &&& 0xFF0000) <<< 24) |||
  ((n &&& 0xFF000000) <<< 8)

/-- `writeBinaryValue` from impl.go: varint length, then the bytes. -/
def writeBinaryValue (p : List Nat) : List Nat :=
  writeUintValue p.length ++ p

/-- `writeBinary` from impl.go: type-marker byte, then length + bytes
(used with `typeString`, `typeBinary`, `typeGob`). -/
def writeBinary (t : Nat) (p : List Nat) : List Nat :=
  t :: writeBinaryValue p

/-- `WriteNull`. -/
def writeNull : List Nat := [typeNull]

/-- `WriteInt`: `typeInt` marker, then varint of `int2Uint`. -/
def writeIntTagged (n : Int) : List Nat :=
  typeInt :: writeUintValue (int2Uint n)

/-- `WriteUint`: `typeUint` marker, then varint. -/
def writeUintTagged (n : Nat) : List Nat :=
  typeUint :: writeUintValue n

/-- `WriteBool`: `typeBool` marker, then varint 0/1. -/
def writeBoolTagged (b : Bool) : List Nat :=
  typeBool :: writeUintValue (cond b 1 0)

/-- `WriteFloat`: `typeFloat` marker, then varint of the byte-reversed
`float64` bits. -/
def writeFloatTagged (bits : Nat) : List Nat :=
  typeFloat :: writeUintValue (reverseBytes bits)

/-- Start offsets of consecutive chunks in a scratch buffer: entry `i` is
the buffer length before chunk `i` was appended (`offsets[i] = data.Len()`
in `WriteArray` / `WriteObject`). -/
def prefixSums : List Nat → List Nat
  | [] => []
  | a :: as => 0 :: (prefixSums as).map (a + ·)

/-- The offset-width adjustment loop shared by `WriteArray` and
`WriteObject`: while the maximum offset inclusive of the offset table
(`count` entries of the current width) does not fit the current width,
double the width; if doubling exceeds 8, fail (`invalid offset size`).
The fuel only bounds the doubling chain, which has at most 4 steps from
any start in `{1,…,8}`. -/
def chooseOffsetSizeLoop : Nat → Nat → Nat → Nat → Option Nat
  | 0, _, _, _ => none
  | fuel + 1, maxOff, count, w =>
      if w < fixedUintSize (maxOff + count * w) then
        if w * 2 > 8 then none
        else chooseOffsetSizeLoop fuel maxOff count (w * 2)
      else some w

/-- Offset-width selection of `WriteArray`/`WriteObject`: start from
`fixedUintSize` of the unadjusted maximum offset, then run the doubling
loop. -/
def chooseOffsetSize (maxOff count : Nat) : Option Nat :=
  chooseOffsetSizeLoop 8 maxOff count (fixedUintSize maxOff)

/-- `genBuckets` from impl.go (separate chaining): iterating the entries
in order and appending each to bucket `fnv1a(key) mod B` produces, for
each bucket index, exactly the in-order sublist of entries whose key
hashes there.  Generic in the value component because `WriteObject`
serializes each entry's value exactly once, so bucketing the
`(key, serialized-value)` pairs yields byte-identical buckets. -/
def genBucketsKV {α : Type} (B : Nat) (xs : List (List Nat × α)) :
    List (List (List Nat × α)) :=
  (List.range B).map (fun i => xs.filter (fun kv => stringHash kv.1 % B == i))

/-- The `avgOverflow` computation of `genBuckets`: integer average of the
sizes of buckets holding more than one entry (0 when there are none). -/
def avgOverflow (buckets : List (List (List Nat × α))) : Nat :=
  let ovs := (buckets.map List.length).filter (fun l => 1 < l)
  if ovs.length = 0 then 0 else ovs.sum / ovs.length

/-- The bucket-count choice of `WriteObject`: `nearestPrime(N*4/3)`
(integer division), rehashed once to
`nearestPrime(max(B₀*4/3, B₀+1))` if the average overflow exceeds 5.
Depends only on the keys and the entry count. -/
def objBucketCount {α : Type} (xs : List (List Nat × α)) : Nat :=
  let b0 := nearestPrime (xs.length * 4 / 3)
  if avgOverflow (genBucketsKV b0 xs) > 5 then
    nearestPrime (max (b0 * 4 / 3) (b0 + 1))
  else b0

/-- One bucket's scratch bytes in `WriteObject`: varint list size, then
for each entry the key (as a length-prefixed binary value), the varint
byte size of the serialized value, and the serialized value. -/
def bucketChunk (pairs : List (List Nat × List Nat)) : List Nat :=
  writeUintValue pairs.length ++
    (pairs.map (fun kv => writeBinaryValue kv.1 ++
      writeUintValue kv.2.length ++ kv.2)).flatten

/-- The assembly phase of `WriteArray` given the per-element scratch
chunks: compute start offsets, pick the width, fix offsets up by the
table size `N*W`, and emit marker, length (fixed width `W`), offset
table, data.  `none` models the propagated `invalid offset size` error
(in which case nothing is written). -/
def arrLayout (chunks : List (List Nat)) : Option (List Nat) :=
  let offs := prefixSums (chunks.map List.length)
  let maxOff := offs.getLastD 0
  match chooseOffsetSize maxOff chunks.length with
  | none => none
  | some w =>
      let delta := chunks.length * w
      some (newTypeMarker typeArray w ::
        (writeFixedUint chunks.length w ++
          ((offs.map (fun o => writeFixedUint (o + delta) w)).flatten ++
            chunks.flatten)))

/-- The assembly phase of `WriteObject` given the bucket count and the
per-bucket scratch chunks; like `arrLayout` but the bucket count is a
varint and the table has one offset per bucket. -/
def objLayout (B : Nat) (chunks : List (List Nat)) : Option (List Nat) :=
  let offs := prefixSums (chunks.map List.length)
  let maxOff := offs.getLastD 0
  match chooseOffsetSize maxOff B with
  | none => none
  | some w =>
      let delta := B * w
      some (newTypeMarker typeObject w ::
        (writeUintValue B ++
          ((offs.map (fun o => writeFixedUint (o + delta) w)).flatten ++
            chunks.flatten)))

/-! `WriteValue` from impl.go (the `WriteArray`/`WriteObject` recursion
inlined; a container whose offset-width selection fails contributes no
bytes, because the Go writers emit into a scratch buffer and copy it only
on success — and both container writers discard the error of the inner
`WriteValue` calls). -/
mutual

def writeVal : Val → List Nat
  | .vNull => writeNull
  | .vInt n => writeIntTagged n
  | .vUint n => writeUintTagged n
  | .vBool b => writeBoolTagged b
  | .vStr s => writeBinary typeString s
  | .vFloat bits => writeFloatTagged bits
  | .vBin p => writeBinary typeBinary p
  | .vGob p => writeBinary typeGob p
  | .vArr es => (arrLayout (writeValList es)).getD []
  | .vObj kvs =>
      (objLayout (objBucketCount (writePairs kvs))
        ((genBucketsKV (objBucketCount (writePairs kvs))
          (writePairs kvs)).map bucketChunk)).getD []

def writeValList : List Val → List (List Nat)
  | [] => []
  | v :: vs => writeVal v :: writeValList vs

def writePairs : List (List Nat × Val) → List (List Nat × List Nat)
  | [] => []
  | (k, v) :: rest => (k, writeVal v) :: writePairs rest

end

/-! Well-formedness for the round-trip theorems: every number fits
`uint64`, every byte string and key is addressable (Go lengths are
`int`), every container's offset-width selection succeeds, and the
entry/element counts fit `int64`. -/
mutual

def valOkB : Val → Bool
  | .vNull => true
  | .vInt _ => true
  | .vUint n => decide (n < 2 ^ 64)
  | .vBool _ => true
  | .vStr s => decide (s.length < 2 ^ 63)
  | .vFloat bits => decide (bits < 2 ^ 64)
  | .vBin p => decide (p.length < 2 ^ 63)
  | .vGob p => decide (p.length < 2 ^ 63)
  | .vArr es => (arrLayout (writeValList es)).isSome &&
      decide (es.length < 2 ^ 63) && valOkListB es
  | .vObj kvs =>
      (objLayout (objBucketCount (writePairs kvs))
        ((genBucketsKV (objBucketCount (writePairs kvs))
          (writePairs kvs)).map bucketChunk)).isSome &&
      decide (kvs.length < 2 ^ 63) &&
      decide (objBucketCount (writePairs kvs) < 2 ^ 63) && valOkPairsB kvs

def valOkListB : List Val → Bool
  | [] => true
  | v :: vs => valOkB v && valOkListB vs

def valOkPairsB : List (List Nat × Val) → Bool
  | [] => true
  | (k, v) :: rest =>
      decide (k.length < 2 ^ 63) && valOkB v && valOkPairsB rest

end

/-! Container-nesting depth, the fuel needed by the recursive reader. -/
mutual

def depthV : Val → Nat
  | .vArr es => depthList es + 1
  | .vObj kvs => depthPairs kvs + 1
  | _ => 1

def depthList : List Val → Nat
  | [] => 0
  | v :: vs => max (depthV v) (depthList vs)

def depthPairs : List (List Nat × Val) → Nat
  | [] => 0
  | (_, v) :: rest => max (depthV v) (depthPairs rest)

end

/-! ### The read-back image

`RVal` is what `ReadValue` produces: scalars (with `int` already pushed
through the codec pair), fully materialized containers when
`recursive = true` (`[]any`, and the `map[string]any` as the entry list
in bucket-scan order), or lazy descriptors when `recursive = false`
(the `Array`/`Object` structs minus their reader field). -/

inductive RVal where
  | rNull : RVal
  | rInt : Int → RVal
  | rUint : Nat → RVal
  | rBool : Bool → RVal
  | rStr : List Nat → RVal
  | rFloat : Nat → RVal
  | rBin : List Nat → RVal
  | rGob : List Nat → RVal
  | rArr : List RVal → RVal
  | rObj : List (List Nat × RVal) → RVal
  | rArrDesc : Nat → Nat → Nat → RVal
  | rObjDesc : Nat → Nat → Nat → RVal
  deriving Repr

/-! The value `ReadValue(recursive = true)` materializes from the bytes
`writeVal v`: identity except that signed integers go through the
`int2Uint`/`uint2Int` pair, float bits go through the double byte
reversal, and object entries appear in bucket-scan order. -/
mutual

def matVal : Val → RVal
  | .vNull => .rNull
  | .vInt n => .rInt (uint2Int (int2Uint n))
  | .vUint n => .rUint n
  | .vBool b => .rBool b
  | .vStr s => .rStr s
  | .vFloat bits => .rFloat (reverseBytes (reverseBytes bits))
  | .vBin p => .rBin p
  | .vGob p => .rGob p
  | .vArr es => .rArr (matList es)
  | .vObj kvs =>
      .rObj ((genBucketsKV (objBucketCount (matPairs kvs))
        (matPairs kvs)).flatten)

def matList : List Val → List RVal
  | [] => []
  | v :: vs => matVal v :: matList vs

def matPairs : List (List Nat × Val) → List (List Nat × RVal)
  | [] => []
  | (k, v) :: rest => (k, matVal v) :: matPairs rest

end

/-! ### The lazy reader -/

/-- The `Array` descriptor of impl.go (reader field left implicit). -/
structure ArrayD where
  pos : Nat
  length : Nat
  offsetSize : Nat
  deriving Repr, DecidableEq

/-- The `Object` descriptor of impl.go. -/
structure ObjectD where
  pos : Nat
  bucketCount : Nat
  offsetSize : Nat
  deriving Repr, DecidableEq

/-- `readArrayValue`: fixed-width length (rejected above `math.MaxInt`),
then capture the position as the descriptor base. -/
def readArrayValue (offsetSize : Nat) : RM ArrayD := do
  let length ← readFixedUint offsetSize
  if length > 2 ^ 63 - 1 then rmFail .format
  else do
    let p ← tellPos
    pure ⟨p, length, offsetSize⟩

/-- `readObjectValue`: varint bucket count (unchecked), then capture the
position as the descriptor base. -/
def readObjectValue (offsetSize : Nat) : RM ObjectD := do
  let B ← readUintValue
  let p ← tellPos
  pure ⟨p, B, offsetSize⟩

/-- `ReadArray`: marker byte; on a non-array type the error wraps
`&TypeError{t}` with `%w` (the one place `errors.As` can match). -/
def readArrayTagged : RM ArrayD := do
  let tb ← readByte
  if markerType tb = typeArray then readArrayValue (markerOffsetSize tb)
  else rmFail (.typeErr (markerType tb))

/-- `ReadObject`: marker byte; on a non-object type the error is built
with `%v` — a plain error that does NOT wrap `*TypeError`. -/
def readObjectTagged : RM ObjectD := do
  let tb ← readByte
  if markerType tb = typeObject then readObjectValue (markerOffsetSize tb)
  else rmFail (.invalidType (markerType tb))

/-- One iteration of `Array.Value`'s element loop (the Go `for` body at
index `i`): seek to the table slot `pos + i*W` (Go `int64` arithmetic),
read the offset, seek to `pos + int64(offset)`, decode the element with
`rd` (`ReadValue(r, true)`), then run the remaining iterations `next`. -/
def arrayValueIter (rd : RM RVal) (pos w i : Nat)
    (next : RM (List RVal)) : RM (List RVal) := do
  seekTo (wrap64 (pos + wrap64 (w * i)))
  let off ← readFixedUint w
  seekTo (wrap64 (pos + u64ToI64 off))
  let v ← rd
  let rest ← next
  pure (v :: rest)

/-- The element loop of `Array.Value`: iterate `arrayValueIter` for `i`
up to the length (`todo` iterations remain). -/
def arrayValueLoop (rd : RM RVal) (pos w : Nat) : Nat → Nat → RM (List RVal)
  | _, 0 => pure []
  | i, todo + 1 =>
      arrayValueIter rd pos w i (arrayValueLoop rd pos w (i + 1) todo)

/-- `Array.Value`. -/
def arrayValueF (rd : RM RVal) (a : ArrayD) : RM (List RVal) :=
  arrayValueLoop rd a.pos a.offsetSize 0 a.length

/-- One entry of a bucket in `Object.Value`: key (string value), value
size (read and ignored), recursive value, then the remaining entries
`next`. -/
def objectEntryIter (rd : RM RVal)
    (next : RM (List (List Nat × RVal))) : RM (List (List Nat × RVal)) := do
  let key ← readBinaryValue
  let _sz ← readUintValue
  let v ← rd
  let rest ← next
  pure ((key, v) :: rest)

/-- The entry loop shared by `Object.Value`'s buckets: `objectEntryIter`
iterated for the bucket's stored entry count. -/
def objectEntriesLoop (rd : RM RVal) : Nat → RM (List (List Nat × RVal))
  | 0 => pure []
  | todo + 1 => objectEntryIter rd (objectEntriesLoop rd todo)

/-- One iteration of `Object.Value`'s bucket loop (bucket `i`): seek to
the table slot, read the offset (rejected above `math.MaxInt64`), seek
to the bucket, read its length and entries, then run the remaining
buckets `next`. -/
def objectBucketIter (rd : RM RVal) (pos w i : Nat)
    (next : RM (List (List Nat × RVal))) : RM (List (List Nat × RVal)) := do
  seekTo (wrap64 (pos + wrap64 (i * w)))
  let off ← readFixedUint w
  if off > 2 ^ 63 - 1 then rmFail .format
  else do
    seekTo (wrap64 (pos + u64ToI64 off))
    let len ← readUintValue
    let entries ← objectEntriesLoop rd len
    let rest ← next
    pure (entries ++ rest)

/-- The bucket loop of `Object.Value`: `objectBucketIter` for `i` up to
the bucket count. -/
def objectBucketsLoop (rd : RM RVal) (pos w : Nat) :
    Nat → Nat → RM (List (List Nat × RVal))
  | _, 0 => pure []
  | i, todo + 1 =>
      objectBucketIter rd pos w i (objectBucketsLoop rd pos w (i + 1) todo)

/-- `Object.Value` (the Go map assignment order is the bucket-scan
order; all keys of a written map are distinct, so the entry list carries
the same mapping). -/
def objectValueF (rd : RM RVal) (o : ObjectD) : RM (List (List Nat × RVal)) :=
  objectBucketsLoop rd o.pos o.offsetSize 0 o.bucketCount

/-- The body of `ReadValue` from impl.go: dispatch on the type of the
marker byte; `rd` is the recursive occurrence of `ReadValue` used for
container elements. -/
def readValueBody (rd : Bool → RM RVal) (recursive : Bool) : RM RVal := do
  let tb ← readByte
  let t := markerType tb
  if t = typeNull then pure .rNull
  else if t = typeInt then do
    let n ← readIntValue
    pure (.rInt n)
  else if t = typeUint then do
    let n ← readUintValue
    pure (.rUint n)
  else if t = typeBool then do
    let b ← readBoolValue
    pure (.rBool b)
  else if t = typeString then do
    let s ← readBinaryValue
    pure (.rStr s)
  else if t = typeFloat then do
    let n ← readUintValue
    pure (.rFloat (reverseBytes n))
  else if t = typeBinary then do
    let p ← readBinaryValue
    pure (.rBin p)
  else if t = typeGob then do
    let p ← readBinaryValue
    pure (.rGob p)
  else if t = typeArray then do
    let a ← readArrayValue (markerOffsetSize tb)
    if recursive then do
      let vs ← arrayValueF (rd true) a
      pure (.rArr vs)
    else pure (.rArrDesc a.pos a.length a.offsetSize)
  else if t = typeObject then do
    let o ← readObjectValue (markerOffsetSize tb)
    if recursive then do
      let es ← objectValueF (rd true) o
      pure (.rObj es)
    else pure (.rObjDesc o.pos o.bucketCount o.offsetSize)
  else rmFail (.invalidType t)

/-- `ReadValue` from impl.go, by fuel on container nesting (the Go
recursion has no bound; `depthV` fuel suffices for self-written data).
Each fuel step runs `readValueBody` with `readValueF fuel` as the
recursive reader, so the recursion is structural. -/
def readValueF : Nat → Bool → RM RVal
  | 0, _ => rmFail .fuel
  | fuel + 1, recursive => readValueBody (readValueF fuel) recursive

/-- `Array.Index` from impl.go, with the Go `int` arithmetic kept
two's-complement faithful: the bounds test is `i < 0 || i+1 > length`
(the increment wraps), the table position is
`pos + int64(offsetSize)*int64(i)` (both operations wrap), the offset is
rejected above `math.MaxInt64`, and the final seek is
`pos + int64(offset)`. -/
def arrayIndexF (rd : Bool → RM RVal) (a : ArrayD) (i : Int)
    (recursive : Bool) : RM RVal :=
  if i < 0 ∨ wrap64 (i + 1) > (a.length : Int) then
    rmFail (.bounds (a.length : Int) i)
  else do
    seekTo (wrap64 (a.pos + wrap64 (a.offsetSize * i)))
    let off ← readFixedUint a.offsetSize
    if off > 2 ^ 63 - 1 then rmFail .format
    else do
      seekTo (wrap64 (a.pos + u64ToI64 off))
      rd recursive

/-- The bucket-scan loop of `Object.Index`: read the stored key; on a
match, read (and ignore) the value size and decode the value; otherwise
read the value size and seek forward by it (`Seek(int64(valueSize),
io.SeekCurrent)`), skipping the value bytes without decoding them. -/
def objectIndexIter (rd : Bool → RM RVal) (key : List Nat)
    (recursive : Bool) (next : RM RVal) : RM RVal := do
  let bucketKey ← readBinaryValue
  if key = bucketKey then do
    let _sz ← readUintValue
    rd recursive
  else do
    let vsz ← readUintValue
    let p ← tellPos
    seekTo (wrap64 (p + u64ToI64 vsz))
    next

/-- The scan of `Object.Index`: `objectIndexIter` for the bucket's
stored entry count; `ErrNotFound` when the scan exhausts the bucket. -/
def objectIndexLoop (rd : Bool → RM RVal) (key : List Nat)
    (recursive : Bool) : Nat → RM RVal
  | 0 => rmFail .notFound
  | todo + 1 =>
      objectIndexIter rd key recursive (objectIndexLoop rd key recursive todo)

/-- `Object.Index` from impl.go: probe the single bucket
`fnv1a(key) mod bucketCount`; `ErrNotFound` when the scan exhausts it.
A zero bucket count makes the Go modulo panic at run time; the panic is
modelled as a `format` error (the self-written bucket count is ≥ 2, see
the C10 theorem). -/
def objectIndexF (rd : Bool → RM RVal) (o : ObjectD) (key : List Nat)
    (recursive : Bool) : RM RVal :=
  if o.bucketCount = 0 then rmFail .format
  else do
    let i := stringHash key % o.bucketCount
    seekTo (wrap64 (o.pos + wrap64 (i * o.offsetSize)))
    let off ← readFixedUint o.offsetSize
    if off > 2 ^ 63 - 1 then rmFail .format
    else do
      seekTo (wrap64 (o.pos + u64ToI64 off))
      let len ← readUintValue
      objectIndexLoop rd key recursive len

/-! ### The top-level reader (`hashive.go`) -/

/-- The 8-byte file signature `"hashive\x00"`. -/
def fileSignature : List Nat := [104, 97, 115, 104, 105, 118, 101, 0]

/-- The result of `New`: `Except` for a non-nil `err`; on a nil `err`,
`none` models the `(nil, nil)` return (a nil `*Hashive`!), and
`some (obj?, ary?)` a `*Hashive` with the two descriptor fields. -/
def NewResult : Type := Except Err (Option (Option ObjectD × Option ArrayD))

/-- `New` from hashive.go (over an unbuffered reader,
`readBufferSize = 0`): read and check the signature, try `ReadObject`;
the recovery branch runs only when `errors.As(err, &typeErr)` matches,
i.e. only on an `Err.typeErr` — which `ReadObject` never produces — and
inside it a *successful* `ReadArray` hits `if !errors.As(err, &typeErr)
{ return }` with a nil error and returns the zero-valued named results
`(nil, nil)`. -/
def newHashive (D : List Nat) : NewResult :=
  match readBytes 8 D 0 with
  | .error e => .error e
  | .ok (sig, p) =>
      if sig ≠ fileSignature then .error .format
      else
        match readObjectTagged D p with
        | .ok (o, _) => .ok (some (some o, none))
        | .error e =>
            match e with
            | .typeErr _ =>
                match readArrayTagged D 8 with
                | .ok _ => .ok none
                | .error e2 =>
                    match e2 with
                    | .typeErr _ => .ok (some (none, none))
                    | _ => .error e2
            | _ => .ok (some (none, none))

/-- The dispatch of `Hashive.Query` for a single numeric path element:
with an object descriptor the element is an object key; with an array
descriptor it indexes the array; with neither, `ErrNotFound`. -/
def queryNumeric (D : List Nat) (fuel : Nat)
    (h : Option ObjectD × Option ArrayD) (i : Int) (key : List Nat) :
    Except Err (RVal × Nat) :=
  match h with
  | (some o, _) => objectIndexF (readValueF fuel) o key true D (0 : Nat)
  | (none, some a) => arrayIndexF (readValueF fuel) a i true D (0 : Nat)
  | (none, none) => .error .notFound

/-! ### The `WriteValue` integer dispatch (`impl.go` lines 556–597) -/

/-- Go-typed integer inputs of `WriteValue`, with the value each carries
(`int8` holds `-128…127`, etc.). -/
inductive GoInt where
  | goInt8 : Int → GoInt
  | goUint8 : Nat → GoInt
  | goInt16 : Int → GoInt
  | goUint16 : Nat → GoInt
  | goInt32 : Int → GoInt
  | goUint32 : Nat → GoInt
  | goInt64 : Int → GoInt
  | goUint64 : Nat → GoInt
  | goInt : Int → GoInt
  | goUint : Nat → GoInt
  deriving Repr

/-- The integer cases of the `WriteValue` type switch, verbatim from the
source: note that the `int8` and `uint8` cases are crossed —
`case int8: return WriteUint(w, uint64(value))` and
`case uint8: return WriteInt(w, int64(value))` — while every other width
routes signed to `WriteInt` and unsigned to `WriteUint`.
`uint64(value)` of a negative `int8` sign-extends (`i64ToU64`). -/
def writeValueGoInt : GoInt → List Nat
  | .goInt8 n => writeUintTagged (i64ToU64 n)
  | .goUint8 n => writeIntTagged (n : Int)
  | .goInt16 n => writeIntTagged n
  | .goUint16 n => writeUintTagged n
  | .goInt32 n => writeIntTagged n
  | .goUint32 n => writeUintTagged n
  | .goInt64 n => writeIntTagged n
  | .goUint64 n => writeUintTagged n
  | .goInt n => writeIntTagged n
  | .goUint n => writeUintTagged n

/-! ### The buffered byte-seeker (`bufByteReadSeeker`) -/

/-- A `bytes.Reader`: the data and the cursor. -/
structure GoBytesReader where
  data : List Nat
  pos : Nat
  deriving Repr, DecidableEq

/-- One `Read(p)` call on a `bytes.Reader` asking for `k` bytes: returns
`min k remaining` bytes and advances. -/
def goRead (br : GoBytesReader) (k : Nat) : List Nat × GoBytesReader :=
  let chunk := (br.data.drop br.pos).take k
  (chunk, { br with pos := br.pos + chunk.length })

/-- `Seek(x, io.SeekStart)` on a `bytes.Reader`. -/
def goSeekStart (br : GoBytesReader) (x : Int) :
    Except Err (Int × GoBytesReader) :=
  if x < 0 then .error .io else .ok (x, { br with pos := x.toNat })

/-- The state of a `bufio.Reader`: its capacity and the buffered,
not-yet-consumed bytes.  `bufio.Reader.Read`/`ReadByte` consult the
underlying reader only when this is empty, and a fill issues one `Read`
for the full (empty) buffer. -/
structure GoBufio where
  cap : Nat
  pending : List Nat
  deriving Repr, DecidableEq

/-- `bufio.Reader.Reset`: drop the buffered bytes. -/
def bufioReset (b : GoBufio) : GoBufio :=
  { b with pending := [] }

/-- `bufio.Reader.ReadByte`: serve from the buffer, filling it with one
underlying `Read` when empty; `io.EOF` if the fill yields nothing. -/
def bufioReadByte (u : GoBytesReader) (b : GoBufio) :
    Except Err (Nat × GoBytesReader × GoBufio) :=
  match b.pending with
  | c :: rest => .ok (c, u, { b with pending := rest })
  | [] =>
      match goRead u b.cap with
      | ([], _) => .error .io
      | (c :: rest, u2) => .ok (c, u2, { b with pending := rest })

/-- `bufByteReadSeeker`: underlying reader, `bufio` buffer, the seek
offset of the underlying reader when it was wrapped (`bufOffset`), and
the bytes consumed from the buffer since (`bufRead`). -/
structure BufBRS where
  u : GoBytesReader
  b : GoBufio
  bufOffset : Int
  bufRead : Nat
  deriving Repr, DecidableEq

/-- `NewBufByteReadSeeker` with a non-zero buffer size (`bufio.NewReaderSize`
enforces a minimum buffer of 16 bytes). -/
def newBufBRS (data : List Nat) (bufferSize : Nat) : BufBRS :=
  { u := ⟨data, 0⟩, b := ⟨max 16 bufferSize, []⟩, bufOffset := 0, bufRead := 0 }

/-- `bufByteReadSeeker.ReadByte`. -/
def bbrsReadByte (s : BufBRS) : Except Err (Nat × BufBRS) :=
  match bufioReadByte s.u s.b with
  | .error e => .error e
  | .ok (c, u2, b2) => .ok (c, { s with u := u2, b := b2, bufRead := s.bufRead + 1 })

/-- `bufByteReadSeeker.Seek` with `io.SeekStart`: seek the underlying
reader, and reset the buffer only when the resulting position differs
from the tracked logical position (`advanced != 0` in the source). -/
def bbrsSeekStart (s : BufBRS) (off : Int) : Except Err (Int × BufBRS) :=
  let current := s.bufOffset + (s.bufRead : Int)
  match goSeekStart s.u off with
  | .error e => .error e
  | .ok (n, u2) =>
      if n - current = 0 then .ok (n, { s with u := u2 })
      else .ok (n, { u := u2, b := bufioReset s.b, bufOffset := n, bufRead := 0 })

/-- Run `k` consecutive `ReadByte`s, returning the bytes read. -/
def bbrsReadBytes : Nat → BufBRS → Except Err (List Nat × BufBRS)
  | 0, s => .ok ([], s)
  | k + 1, s =>
      match bbrsReadByte s with
      | .error e => .error e
      | .ok (c, s2) =>
          match bbrsReadBytes k s2 with
          | .error e => .error e
          | .ok (cs, s3) => .ok (c :: cs, s3)

/-! ### Spec-side definition for the offset-width claim

The claim for C6 states the chosen width is the smallest element of
`{1, 2, 4, 8}` admitting the maximum offset inclusive of the offset
table; this is its direct formalization, to be compared with the
source-derived `chooseOffsetSize`. -/

def specOffsetWidth1248 (maxOff count : Nat) : Option Nat :=
  if maxOff + count * 1 ≤ 0xFF then some 1
  else if maxOff + count * 2 ≤ 0xFFFF then some 2
  else if maxOff + count * 4 ≤ 0xFFFFFFFF then some 4
  else if maxOff + count * 8 ≤ 0xFFFFFFFFFFFFFFFF then some 8
  else none

/-! ### Verification-auxiliary definitions -/

/-- `Reads m X a`: run anywhere in a stream, the reader `m` consumes
exactly the bytes `X` and returns `a`.  The workhorse relating writers
(which produce `X`) to readers. -/
def Reads (m : RM α) (X : List Nat) (a : α) : Prop :=
  ∀ P S : List Nat, m (P ++ (X ++ S)) P.length = .ok (a, P.length + X.length)

/-- `ReadsB m X a`: like `Reads`, restricted to placements whose region
end stays below `2^63`, so that every Go `int64` position computation
inside container readers is wrap-free. -/
def ReadsB (m : RM α) (X : List Nat) (a : α) : Prop :=
  ∀ P S : List Nat, P.length + X.length < 2 ^ 63 →
    m (P ++ (X ++ S)) P.length = .ok (a, P.length + X.length)

/-- `NB m`: the reader `m` never fails with a `BoundsError` (used for the
in-range half of the bounds claim). -/
def NB (m : RM α) : Prop :=
  ∀ (D : List Nat) (p : Nat) (l i : Int), m D p ≠ .error (.bounds l i)

/-! ## Theorems -/

theorem putLE_length (k n : Nat) : (putLE k n).length = k := by
  induction k generalizing n with
  | zero => rfl
  | succ k ih => simp [putLE, ih]

theorem getLE_putLE (k n : Nat) : getLE (putLE k n) = n % 256 ^ k := by
  induction k generalizing n with
  | zero => simp [putLE, getLE, Nat.mod_one]
  | succ k ih =>
      simp only [putLE, getLE, ih]
      rw [pow_succ, mul_comm (256 ^ k) 256, Nat.mod_mul]

theorem getLE_putLE_of_lt {k n : Nat} (h : n < 256 ^ k) :
    getLE (putLE k n) = n := by
  rw [getLE_putLE, Nat.mod_eq_of_lt h]

theorem fixedUintSize_pos (n : Nat) : 1 ≤ fixedUintSize n := by
  unfold fixedUintSize
  split <;> try omega
  split <;> try omega
  split <;> try omega
  split <;> try omega
  split <;> try omega
  split <;> try omega
  split <;> omega

theorem fixedUintSize_le_eight (n : Nat) : fixedUintSize n ≤ 8 := by
  unfold fixedUintSize
  split <;> try omega
  split <;> try omega
  split <;> try omega
  split <;> try omega
  split <;> try omega
  split <;> try omega
  split <;> omega

theorem lt_pow_fixedUintSize (n : Nat) (h : n < 2 ^ 64) :
    n < 256 ^ fixedUintSize n := by
  unfold fixedUintSize
  split_ifs <;> norm_num [pow_succ] at h ⊢ <;> omega

/-! ### Sequential-read calculus

`Reads m X a` says: run anywhere in a stream, `m` consumes exactly the
bytes `X` and returns `a`.  This is the workhorse for relating the
writers (which produce `X`) to the readers. -/

theorem Reads.pure (a : α) : Reads (Pure.pure a) [] a := by
  intro P S
  simp [Pure.pure, Monad.toApplicative, instMonadRM]

theorem Reads.bind {m : RM α} {f : α → RM β} {X Y : List Nat} {a : α} {b : β}
    (h₁ : Reads m X a) (h₂ : Reads (f a) Y b) :
    Reads (m >>= f) (X ++ Y) b := by
  intro P S
  have e₁ : P ++ ((X ++ Y) ++ S) = P ++ (X ++ (Y ++ S)) := by
    simp [List.append_assoc]
  have e₂ : P ++ (X ++ (Y ++ S)) = (P ++ X) ++ (Y ++ S) := by
    simp [List.append_assoc]
  have hfa := h₂ (P ++ X) S
  rw [List.length_append] at hfa
  show (match m (P ++ ((X ++ Y) ++ S)) P.length with
        | .ok (a, q) => f a (P ++ ((X ++ Y) ++ S)) q
        | .error e => .error e) = Except.ok (b, P.length + (X ++ Y).length)
  rw [e₁, h₁ P (Y ++ S)]
  show f a (P ++ (X ++ (Y ++ S))) (P.length + X.length) = _
  rw [e₂, hfa, List.length_append, Nat.add_assoc]

theorem Reads.readByte_one (b : Nat) : Reads readByte [b] b := by
  intro P S
  show (match (P ++ ([b] ++ S))[P.length]? with
        | some c => Except.ok (c, P.length + 1)
        | none => Except.error Err.io) = _
  rw [List.getElem?_append_right (Nat.le_refl _)]
  simp

theorem Reads.readBytes_exact (X : List Nat) :
    Reads (readBytes X.length) X X := by
  intro P S
  show (if P.length + X.length ≤ (P ++ (X ++ S)).length then _ else _) = _
  rw [if_pos (by simp only [List.length_append]; omega)]
  have hd : (P ++ (X ++ S)).drop P.length = X ++ S := List.drop_left P (X ++ S)
  rw [hd, List.take_left]

/-- A `Reads` fact for a bind whose first component reads one byte. -/
theorem Reads.byteBind {f : Nat → RM β} {Y : List Nat} {c : Nat} {b : β}
    (h : Reads (f c) Y b) : Reads (readByte >>= f) (c :: Y) b :=
  Reads.bind (Reads.readByte_one c) h

theorem reads_readFixedUint {k n : Nat} (h1 : 1 ≤ k) (h8 : k ≤ 8)
    (hn : n < 256 ^ k) : Reads (readFixedUint k) (putLE k n) n := by
  unfold readFixedUint
  rw [if_pos ⟨h1, h8⟩]
  have hb := Reads.readBytes_exact (putLE k n)
  rw [putLE_length] at hb
  have h2 : Reads ((fun bs => (Pure.pure (getLE bs) : RM Nat)) (putLE k n)) [] n := by
    show Reads (Pure.pure (getLE (putLE k n)) : RM Nat) [] n
    rw [getLE_putLE_of_lt hn]
    exact Reads.pure n
  have := Reads.bind (f := fun bs => (Pure.pure (getLE bs) : RM Nat)) hb h2
  simpa using this

/-- One continuation-byte case of the varint decoder: prefix `c` with
`127 < c`, continuation length `k = 256 - c`. -/
theorem reads_readUint_case {c k n : Nat} (hc : 127 < c) (hc2 : c ≤ 255)
    (hk : (256 - c) % 256 = k) (h1 : 1 ≤ k) (h8 : k ≤ 8)
    (hn : n < 256 ^ k) : Reads readUintValue (c :: putLE k n) n := by
  unfold readUintValue
  apply Reads.byteBind
  show Reads (if c ≤ 127 then (Pure.pure c : RM Nat)
      else readFixedUint ((256 - c) % 256)) (putLE k n) n
  rw [if_neg (by omega), hk]
  exact reads_readFixedUint h1 h8 hn

theorem reads_readUintValue {n : Nat} (hn : n < 2 ^ 64) :
    Reads readUintValue (writeUintValue n) n := by
  unfold writeUintValue
  by_cases c1 : n ≤ 127
  · rw [if_pos c1]
    unfold readUintValue
    apply Reads.byteBind (Y := [])
    show Reads (if n ≤ 127 then (Pure.pure n : RM Nat)
        else readFixedUint ((256 - n) % 256)) [] n
    rw [if_pos c1]
    exact Reads.pure n
  rw [if_neg c1]
  by_cases c2 : n ≤ 0xFF
  · rw [if_pos c2]
    exact reads_readUint_case (by omega) (by omega) (by norm_num) (by omega)
      (by omega) (by norm_num; omega)
  rw [if_neg c2]
  by_cases c3 : n ≤ 0xFFFF
  · rw [if_pos c3]
    exact reads_readUint_case (by omega) (by omega) (by norm_num) (by omega)
      (by omega) (by norm_num; omega)
  rw [if_neg c3]
  by_cases c4 : n ≤ 0xFFFFFF
  · rw [if_pos c4]
    exact reads_readUint_case (by omega) (by omega) (by norm_num) (by omega)
      (by omega) (by norm_num; omega)
  rw [if_neg c4]
  by_cases c5 : n ≤ 0xFFFFFFFF
  · rw [if_pos c5]
    exact reads_readUint_case (by omega) (by omega) (by norm_num) (by omega)
      (by omega) (by norm_num; omega)
  rw [if_neg c5]
  by_cases c6 : n ≤ 0xFFFFFFFFFF
  · rw [if_pos c6]
    exact reads_readUint_case (by omega) (by omega) (by norm_num) (by omega)
      (by omega) (by norm_num; omega)
  rw [if_neg c6]
  by_cases c7 : n ≤ 0xFFFFFFFFFFFF
  · rw [if_pos c7]
    exact reads_readUint_case (by omega) (by omega) (by norm_num) (by omega)
      (by omega) (by norm_num; omega)
  rw [if_neg c7]
  by_cases c8 : n ≤ 0xFFFFFFFFFFFFFF
  · rw [if_pos c8]
    exact reads_readUint_case (by omega) (by omega) (by norm_num) (by omega)
      (by omega) (by norm_num; omega)
  rw [if_neg c8]
  exact reads_readUint_case (by omega) (by omega) (by norm_num) (by omega)
    (by omega) (by norm_num at hn ⊢; omega)


/-! ### Prime-finder facts -/

theorem nearestPrime_prime (n : Nat) : Nat.Prime (nearestPrime n) := by
  unfold nearestPrime
  split
  · exact Nat.prime_two
  · exact (Nat.find_spec (Nat.exists_infinite_primes n)).2

theorem le_nearestPrime (n : Nat) : n ≤ nearestPrime n := by
  unfold nearestPrime
  split
  · omega
  · exact (Nat.find_spec (Nat.exists_infinite_primes n)).1

theorem two_le_nearestPrime (n : Nat) : 2 ≤ nearestPrime n :=
  (nearestPrime_prime n).two_le

theorem nearestPrime_five : nearestPrime 5 = 5 := by
  unfold nearestPrime
  rw [if_neg (by omega), Nat.find_eq_iff]
  refine ⟨⟨by omega, by norm_num⟩, by decide⟩

/-! ### Claim theorems: the scalar integer codec -/

/-- C1 (code bug): the specification states that the signed round-trip
`uint2Int (int2Uint v) = v` holds for every `int64` value `v`, including
every `v < -(2^31)`, with the decoder computing the complement of
`u >> 1` on an odd `u`.  The source's decoder instead computes
`^(u >> 1) | 0x80000000`; the stray OR makes the round-trip collapse
every negative `v` whose bit 31 is clear.  At the failing input
`v = -2^31 - 1` the code yields `-1`. -/
theorem c1_signed_roundtrip_fails_at_minus_2pow31_minus_1 :
    uint2Int (int2Uint (-2147483649)) = -1 ∧ (-2147483649 : Int) ≠ -1 := by
  constructor
  · decide
  · decide

/-- C3 (code bug): `WriteValue`'s doc comment says all signed integers
are stored as `int64` (and the claim: under the signed tag, read back as
the equal signed 64-bit value), but the `int8` and `uint8` cases of the
type switch are crossed: `int8` goes through `WriteUint(uint64(v))` and
`uint8` through `WriteInt(int64(v))`.  Writing `int8(-1)` stores the
unsigned tag with value `2^64 - 1` and reads back as that `uint64`;
writing `uint8(7)` reads back as the signed value 7. -/
theorem c3_writeValue_int8_uint8_swapped :
    readValueF 1 true (writeValueGoInt (.goInt8 (-1))) 0 =
      .ok (.rUint (2 ^ 64 - 1), 10) ∧
    readValueF 1 true (writeValueGoInt (.goUint8 7)) 0 = .ok (.rInt 7, 2) ∧
    (RVal.rUint (2 ^ 64 - 1)) ≠ (RVal.rInt (-1)) ∧
    (RVal.rInt 7) ≠ (RVal.rUint 7) := by
  refine ⟨rfl, rfl, fun h => RVal.noConfusion h, fun h => RVal.noConfusion h⟩

/-! ### Claim theorems: opening an array-rooted file -/

/-- C2 (code bug): the spec says a non-object root yields a recoverable
`TYPE_ERROR`, after which `New` seeks back and decodes the root as an
array, so an array-rooted file opens with the array descriptor
populated and numeric queries work.  In the source, `ReadObject` builds
its type error with `%v` (not `%w`), so `errors.As(err, &typeErr)` never
matches and the recovery branch is dead: `New` on an array-rooted file
returns a `*Hashive` whose object AND array descriptors are both nil
(and a nil error), and a numeric path query then fails with
`ErrNotFound` instead of returning the element. -/
theorem c2_array_rooted_file_opens_with_nil_descriptors :
    newHashive (fileSignature ++ writeVal (.vArr [.vNull])) =
      .ok (some (none, none)) ∧
    queryNumeric (fileSignature ++ writeVal (.vArr [.vNull])) 2
      (none, none) 0 [48] = .error .notFound := by
  exact ⟨rfl, rfl⟩

/-! ### Claim theorems: the buffered byte-seeker -/

/-- C4 (code bug): the spec's seek invariance says that after any
sequence of reads and seeks yielding logical position `p`, the next read
returns the byte at position `p` — including a seek that targets the
current logical position.  The source's `Seek` first repositions the
underlying reader and then returns early when `advanced == 0` without
resetting the `bufio` buffer, leaving the underlying cursor rewound to
the logical position while the buffer still holds read-ahead bytes.
Concretely over the source `0,1,…,39` with buffer 16: read 4 bytes, seek
to 4 (the current logical position), read 12 more (consuming the stale
buffer up to logical position 16) — the next read returns byte 4, not
byte 16. -/
theorem c4_seek_to_current_position_corrupts_stream :
    (match bbrsReadBytes 4 (newBufBRS (List.range 40) 16) with
     | .ok (_, s1) =>
       match bbrsSeekStart s1 4 with
       | .ok (_, s2) =>
         match bbrsReadBytes 12 s2 with
         | .ok (_, s3) =>
             some (s3.bufOffset + (s3.bufRead : Int),
               (bbrsReadByte s3).map Prod.fst)
         | .error _ => none
       | .error _ => none
     | .error _ => none) = some ((16 : Int), .ok 4) ∧
    (List.range 40)[16]? = some 16 ∧ (16 : Nat) ≠ 4 := by
  refine ⟨rfl, by decide, by decide⟩

/-! ### Claim theorems: bucket count -/

/-- C5 (counterexample): the claim says the stored bucket count is a
prime `≥ ⌈4N/3⌉`.  For the 4-entry map with keys "a","b","c","d" the
writer computes `nearestPrime(4*4/3) = nearestPrime(5) = 5` (Go integer
division floors `16/3` to 5), no rehash occurs (average overflow of
4 entries can never exceed 5), and `5 < ⌈16/3⌉ = 6`. -/
theorem c5_cex_four_entries_bucket_count_below_ceil :
    objBucketCount (writePairs
      [([97], .vNull), ([98], .vNull), ([99], .vNull), ([100], .vNull)]) = 5 ∧
    ¬ ((4 * 4 + 2) / 3 ≤ 5) := by
  constructor
  · have harg : (writePairs
        [([97], .vNull), ([98], .vNull), ([99], .vNull), ([100], .vNull)] :
        List (List Nat × List Nat)).length * 4 / 3 = 5 := by decide
    unfold objBucketCount
    rw [harg, nearestPrime_five]
    decide
  · decide

/-- C5 (amended): for every entry list, the bucket count emitted by
`WriteObject` is a prime number and is at least `⌊4N/3⌋` (the Go
expression `len(obj) * 4 / 3`, which floors). -/
theorem c5_bucket_count_prime_and_ge_floor {α : Type}
    (xs : List (List Nat × α)) :
    Nat.Prime (objBucketCount xs) ∧
    xs.length * 4 / 3 ≤ objBucketCount xs := by
  unfold objBucketCount
  dsimp only
  constructor
  · split
    · exact nearestPrime_prime _
    · exact nearestPrime_prime _
  · split
    · have h1 := le_nearestPrime (xs.length * 4 / 3)
      have h2 := le_nearestPrime
        (max (nearestPrime (xs.length * 4 / 3) * 4 / 3)
          (nearestPrime (xs.length * 4 / 3) + 1))
      have h3 : nearestPrime (xs.length * 4 / 3) + 1 ≤
          max (nearestPrime (xs.length * 4 / 3) * 4 / 3)
            (nearestPrime (xs.length * 4 / 3) + 1) := le_max_right _ _
      omega
    · exact le_nearestPrime _

/-! ### Claim theorems: the varint codec -/

/-- C7 (confirmed): the varint codec is correct and minimal.  For
`n ≤ 127` the encoding is the single byte `n`; for larger `n` it is the
prefix byte `256 - K` followed by exactly the `K` little-endian bytes of
`n`, where `K` is minimal (`n` fits no smaller byte count); the decoder
consumes exactly the encoding anywhere in a stream and returns `n`; and
the spec's literal vectors for 254, 256 and 65536 hold. -/
theorem c7_varint_codec_roundtrip_and_minimal (n : Nat) (hn : n < 2 ^ 64) :
    Reads readUintValue (writeUintValue n) n ∧
    (n ≤ 127 → writeUintValue n = [n]) ∧
    (127 < n → ∃ K, 1 ≤ K ∧ K ≤ 8 ∧ n < 256 ^ K ∧
      (∀ j, j < K → 256 ^ j ≤ n) ∧
      writeUintValue n = (256 - K) :: putLE K n) ∧
    writeUintValue 254 = [0xFF, 0xFE] ∧
    writeUintValue 256 = [0xFE, 0x00, 0x01] ∧
    writeUintValue 65536 = [0xFD, 0x00, 0x00, 0x01] := by
  refine ⟨reads_readUintValue hn, ?_, ?_, by decide, by decide, by decide⟩
  · intro h
    unfold writeUintValue
    rw [if_pos h]
  · intro h
    unfold writeUintValue
    rw [if_neg (by omega)]
    by_cases c2 : n ≤ 0xFF
    · rw [if_pos c2]
      exact ⟨1, by omega, by omega, by norm_num; omega,
        fun j hj => by interval_cases j <;> norm_num <;> omega, rfl⟩
    rw [if_neg c2]
    by_cases c3 : n ≤ 0xFFFF
    · rw [if_pos c3]
      exact ⟨2, by omega, by omega, by norm_num; omega,
        fun j hj => by interval_cases j <;> norm_num <;> omega, rfl⟩
    rw [if_neg c3]
    by_cases c4 : n ≤ 0xFFFFFF
    · rw [if_pos c4]
      exact ⟨3, by omega, by omega, by norm_num; omega,
        fun j hj => by interval_cases j <;> norm_num <;> omega, rfl⟩
    rw [if_neg c4]
    by_cases c5 : n ≤ 0xFFFFFFFF
    · rw [if_pos c5]
      exact ⟨4, by omega, by omega, by norm_num; omega,
        fun j hj => by interval_cases j <;> norm_num <;> omega, rfl⟩
    rw [if_neg c5]
    by_cases c6 : n ≤ 0xFFFFFFFFFF
    · rw [if_pos c6]
      exact ⟨5, by omega, by omega, by norm_num; omega,
        fun j hj => by interval_cases j <;> norm_num <;> omega, rfl⟩
    rw [if_neg c6]
    by_cases c7 : n ≤ 0xFFFFFFFFFFFF
    · rw [if_pos c7]
      exact ⟨6, by omega, by omega, by norm_num; omega,
        fun j hj => by interval_cases j <;> norm_num <;> omega, rfl⟩
    rw [if_neg c7]
    by_cases c8 : n ≤ 0xFFFFFFFFFFFFFF
    · rw [if_pos c8]
      exact ⟨7, by omega, by omega, by norm_num; omega,
        fun j hj => by interval_cases j <;> norm_num <;> omega, rfl⟩
    rw [if_neg c8]
    exact ⟨8, by omega, by omega, by norm_num at hn ⊢; omega,
      fun j hj => by interval_cases j <;> norm_num <;> omega, rfl⟩

/-- C7 witness: the theorem instantiated at the concrete input 300. -/
theorem c7_varint_codec_witness :
    (300 : Nat) < 2 ^ 64 ∧ Reads readUintValue (writeUintValue 300) 300 :=
  ⟨by norm_num, (c7_varint_codec_roundtrip_and_minimal 300 (by norm_num)).1⟩

/-! ### Claim theorems: offset-width selection -/

/-- The doubling loop, characterized: from a start width `w` it returns
the first element of the chain `w, 2w, 4w, …` whose inclusive maximum
offset fits, and `none` exactly when every chain element up to 8 fails
to fit (given enough fuel, `8 < w * 2 ^ fuel`). -/
theorem chooseOffsetSizeLoop_spec (fuel : Nat) :
    ∀ maxOff count w, 1 ≤ w → w ≤ 8 → 8 < w * 2 ^ fuel →
    (∀ u, chooseOffsetSizeLoop fuel maxOff count w = some u →
       u ≤ 8 ∧ ∃ j, u = w * 2 ^ j ∧
         fixedUintSize (maxOff + count * u) ≤ u ∧
         ∀ i, i < j → w * 2 ^ i <
           fixedUintSize (maxOff + count * (w * 2 ^ i))) ∧
    (chooseOffsetSizeLoop fuel maxOff count w = none →
       ∀ j, w * 2 ^ j ≤ 8 →
         w * 2 ^ j < fixedUintSize (maxOff + count * (w * 2 ^ j))) := by
  induction fuel with
  | zero =>
      intro maxOff count w h1 h8 hpow
      simp only [pow_zero, mul_one] at hpow
      omega
  | succ fuel ih =>
      intro maxOff count w h1 h8 hpow
      constructor
      · intro u hu
        unfold chooseOffsetSizeLoop at hu
        by_cases hfit : w < fixedUintSize (maxOff + count * w)
        · rw [if_pos hfit] at hu
          by_cases hbig : w * 2 > 8
          · rw [if_pos hbig] at hu
            exact absurd hu (by simp)
          · rw [if_neg hbig] at hu
            have h2 : 8 < w * 2 * 2 ^ fuel := by
              rw [pow_succ] at hpow
              calc (8 : Nat) < w * 2 ^ (fuel + 1) := hpow
                _ = w * 2 * 2 ^ fuel := by ring
            obtain ⟨hle, j, hj, hfitu, hmin⟩ :=
              ((ih maxOff count (w * 2) (by omega) (by omega) h2).1 u hu)
            refine ⟨hle, j + 1, ?_, hfitu, ?_⟩
            · rw [hj, pow_succ]
              ring
            · intro i hi
              match i with
              | 0 => simpa using hfit
              | i + 1 =>
                  have := hmin i (by omega)
                  calc w * 2 ^ (i + 1) = w * 2 * 2 ^ i := by
                        rw [pow_succ]
                        ring
                    _ < fixedUintSize (maxOff + count * (w * 2 * 2 ^ i)) :=
                        this
                    _ = fixedUintSize (maxOff + count * (w * 2 ^ (i + 1))) := by
                        rw [pow_succ]
                        ring_nf
        · rw [if_neg hfit] at hu
          cases hu
          exact ⟨h8, 0, by simp, by omega, by omega⟩
      · intro hu
        unfold chooseOffsetSizeLoop at hu
        by_cases hfit : w < fixedUintSize (maxOff + count * w)
        · rw [if_pos hfit] at hu
          by_cases hbig : w * 2 > 8
          · intro j hj
            match j with
            | 0 => simpa using hfit
            | j + 1 =>
                exfalso
                have h2p : (2 : Nat) ≤ 2 ^ (j + 1) := by
                  calc (2 : Nat) = 2 ^ 1 := rfl
                    _ ≤ 2 ^ (j + 1) := Nat.pow_le_pow_right (by omega) (by omega)
                have hww : w * 2 ≤ w * 2 ^ (j + 1) := Nat.mul_le_mul_left w h2p
                omega
          · rw [if_neg hbig] at hu
            have h2 : 8 < w * 2 * 2 ^ fuel := by
              rw [pow_succ] at hpow
              calc (8 : Nat) < w * 2 ^ (fuel + 1) := hpow
                _ = w * 2 * 2 ^ fuel := by ring
            have hrec :=
              (ih maxOff count (w * 2) (by omega) (by omega) h2).2 hu
            intro j hj
            match j with
            | 0 => simpa using hfit
            | j + 1 =>
                have := hrec j (by
                  calc w * 2 * 2 ^ j = w * 2 ^ (j + 1) := by
                        rw [pow_succ]
                        ring
                    _ ≤ 8 := hj)
                calc w * 2 ^ (j + 1) = w * 2 * 2 ^ j := by
                      rw [pow_succ]
                      ring
                  _ < fixedUintSize (maxOff + count * (w * 2 * 2 ^ j)) := this
                  _ = fixedUintSize (maxOff + count * (w * 2 ^ (j + 1))) := by
                      rw [pow_succ]
                      ring_nf
        · rw [if_neg hfit] at hu
          cases hu

/-- C6 (amended): the chosen offset width is the first element of the
doubling chain `W₀, 2W₀, 4W₀, …` — `W₀ = fixedUintSize(max offset)`,
which can be any of 1–8, not only 1, 2, 4, 8 — whose inclusive maximum
offset (`maxOffset + count·W`) fits in `W` bytes, and the write fails
with the internal error exactly when every chain element up to 8 fails
to fit.  (`chooseOffsetSize` is, definitionally, the width selection of
`WriteArray` and `WriteObject` in `arrLayout`/`objLayout`.)  -/
theorem c6_offset_width_first_fit_in_doubling_chain (maxOff count : Nat) :
    (∀ w, chooseOffsetSize maxOff count = some w →
       1 ≤ w ∧ w ≤ 8 ∧ fixedUintSize (maxOff + count * w) ≤ w ∧
       ∃ j, w = fixedUintSize maxOff * 2 ^ j ∧
         ∀ i, i < j → fixedUintSize maxOff * 2 ^ i <
           fixedUintSize (maxOff + count * (fixedUintSize maxOff * 2 ^ i))) ∧
    (chooseOffsetSize maxOff count = none →
       ∀ j, fixedUintSize maxOff * 2 ^ j ≤ 8 →
         fixedUintSize maxOff * 2 ^ j <
           fixedUintSize (maxOff + count * (fixedUintSize maxOff * 2 ^ j))) := by
  have h1 := fixedUintSize_pos maxOff
  have h8 := fixedUintSize_le_eight maxOff
  have hpow : 8 < fixedUintSize maxOff * 2 ^ 8 := by
    have : (256 : Nat) ≤ fixedUintSize maxOff * 256 := by omega
    calc (8 : Nat) < 256 := by omega
      _ ≤ fixedUintSize maxOff * 256 := this
      _ = fixedUintSize maxOff * 2 ^ 8 := by norm_num
  have hs := chooseOffsetSizeLoop_spec 8 maxOff count
    (fixedUintSize maxOff) h1 h8 hpow
  constructor
  · intro w hw
    obtain ⟨hle, j, hj, hfit, hmin⟩ := hs.1 w hw
    refine ⟨?_, hle, hfit, j, hj, hmin⟩
    rw [hj]
    exact Nat.mul_pos (by omega) (Nat.two_pow_pos j)
  · exact hs.2

/-- Chunk length of the 65600-byte binary element of the C6 input. -/
theorem c6aux_bin_chunk_length :
    (writeVal (Val.vBin (List.replicate 65600 0))).length = 65605 := by
  show (typeBinary :: (writeUintValue
    (List.replicate (65600 : Nat) (0 : Nat)).length ++
    List.replicate 65600 0)).length = 65605
  rw [List.length_cons, List.length_append, List.length_replicate,
    show writeUintValue 65600 = [253, 64, 0, 1] from by decide]
  decide

/-- The serialized chunks of the C6 input. -/
theorem c6aux_chunks :
    writeValList [Val.vBin (List.replicate 65600 0), Val.vNull]
      = [writeVal (Val.vBin (List.replicate 65600 0)), [0]] := rfl

/-- The chunk lengths of the C6 input. -/
theorem c6aux_chunk_lengths :
    (writeValList [Val.vBin (List.replicate 65600 0),
      Val.vNull]).map List.length = [65605, 1] := by
  rw [c6aux_chunks]
  simp only [List.map_cons, List.map_nil, c6aux_bin_chunk_length,
    List.length_cons, List.length_nil]

/-- `arrLayout` unfolded on a successful width selection. -/
theorem arrLayout_eq_of_choose (chunks : List (List Nat)) (w : Nat)
    (h : chooseOffsetSize ((prefixSums (chunks.map List.length)).getLastD 0)
      chunks.length = some w) :
    arrLayout chunks = some (newTypeMarker typeArray w ::
      (writeFixedUint chunks.length w ++
        (((prefixSums (chunks.map List.length)).map
          (fun o => writeFixedUint (o + chunks.length * w) w)).flatten ++
          chunks.flatten))) := by
  unfold arrLayout
  dsimp only
  rw [h]

/-- `objLayout` unfolded on a successful width selection. -/
theorem objLayout_eq_of_choose (B : Nat) (chunks : List (List Nat)) (w : Nat)
    (h : chooseOffsetSize ((prefixSums (chunks.map List.length)).getLastD 0)
      B = some w) :
    objLayout B chunks = some (newTypeMarker typeObject w ::
      (writeUintValue B ++
        (((prefixSums (chunks.map List.length)).map
          (fun o => writeFixedUint (o + B * w) w)).flatten ++
          chunks.flatten))) := by
  unfold objLayout
  dsimp only
  rw [h]

/-- Offset-width selection on the C6 input: the encoder picks width 3. -/
theorem c6aux_choose :
    chooseOffsetSize ((prefixSums ((writeValList
      [Val.vBin (List.replicate 65600 0), Val.vNull]).map
        List.length)).getLastD 0)
      (writeValList [Val.vBin (List.replicate 65600 0), Val.vNull]).length
      = some 3 := by
  rw [c6aux_chunk_lengths]
  rw [show (writeValList [Val.vBin (List.replicate 65600 0),
    Val.vNull]).length = 2 from by rw [c6aux_chunks]; rfl]
  decide

/-- The marker byte the encoder emits for the C6 input carries width 3. -/
theorem c6aux_marker :
    (writeVal (Val.vArr [Val.vBin (List.replicate 65600 0),
      Val.vNull])).head? = some (newTypeMarker typeArray 3) := by
  show ((arrLayout (writeValList
    [Val.vBin (List.replicate 65600 0), Val.vNull])).getD []).head? = _
  rw [arrLayout_eq_of_choose _ 3 c6aux_choose]
  rfl

/-- C6 (counterexample): the claim says the chosen width is the smallest
element of `{1, 2, 4, 8}` admitting the inclusive maximum offset.  For
the array `[bytes(65600 zero bytes), null]` the element chunks have
lengths 65605 and 1, so the unadjusted maximum offset is 65605,
`fixedUintSize 65605 = 3`, the inclusive maximum `65605 + 2·3` still
fits 3 bytes, and the writer emits offset width 3 (visible in the
emitted type-marker byte) — while the smallest fitting width in
`{1, 2, 4, 8}` is 4. -/
theorem c6_cex_width_three_not_a_power_of_two :
    ((writeValList [Val.vBin (List.replicate 65600 0), Val.vNull]).map
      List.length) = [65605, 1] ∧
    (prefixSums [65605, 1]).getLastD 0 = 65605 ∧
    (writeValList [Val.vBin (List.replicate 65600 0), Val.vNull]).length = 2 ∧
    chooseOffsetSize 65605 2 = some 3 ∧
    specOffsetWidth1248 65605 2 = some 4 ∧
    (writeVal (Val.vArr [Val.vBin (List.replicate 65600 0), Val.vNull])).head? =
      some (newTypeMarker typeArray 3) ∧
    markerOffsetSize (newTypeMarker typeArray 3) = 3 ∧
    ¬ ((3 : Nat) = 1 ∨ (3 : Nat) = 2 ∨ (3 : Nat) = 4 ∨ (3 : Nat) = 8) :=
  ⟨c6aux_chunk_lengths, by decide,
    by rw [c6aux_chunks]; rfl, by decide, by decide, c6aux_marker,
    by decide, by decide⟩

/-- C6 witness: the amended characterization applied at the
counterexample input (`maxOff = 65605`, `count = 2`): the chosen width
3 fits inclusively and is the first fit on the chain starting at
`fixedUintSize 65605 = 3`. -/
theorem c6_offset_width_witness :
    1 ≤ 3 ∧ (3 : Nat) ≤ 8 ∧ fixedUintSize (65605 + 2 * 3) ≤ 3 ∧
    ∃ j, (3 : Nat) = fixedUintSize 65605 * 2 ^ j ∧
      ∀ i, i < j → fixedUintSize 65605 * 2 ^ i <
        fixedUintSize (65605 + 2 * (fixedUintSize 65605 * 2 ^ i)) :=
  (c6_offset_width_first_fit_in_doubling_chain 65605 2).1 3 (by decide)

/-! ### Arithmetic and positioning helper lemmas for the round-trip -/

theorem lt_pow_of_fixedUintSize_le {m k : Nat} (hm : m < 2 ^ 64)
    (h : fixedUintSize m ≤ k) : m < 256 ^ k :=
  lt_of_lt_of_le (lt_pow_fixedUintSize m hm)
    (Nat.pow_le_pow_right (by norm_num) h)

theorem wrap64_eq_self {x : Int} (h0 : -(2 ^ 63) ≤ x) (h1 : x < 2 ^ 63) :
    wrap64 x = x := by
  unfold wrap64
  omega

theorem wrap64_coe {n : Nat} (h : n < 2 ^ 63) : wrap64 (n : Int) = n :=
  wrap64_eq_self (by omega) (by exact_mod_cast h)

theorem u64ToI64_small {n : Nat} (h : n < 2 ^ 63) : u64ToI64 n = n :=
  if_pos h

theorem seekTo_nat (q : Nat) (D : List Nat) (p : Nat) :
    seekTo (q : Int) D p = .ok ((), q) := by
  unfold seekTo
  rw [if_neg (by omega)]
  simp

theorem prefixSums_length (l : List Nat) :
    (prefixSums l).length = l.length := by
  induction l with
  | nil => rfl
  | cons a as ih => simp [prefixSums, ih]

theorem prefixSums_getElem? (l : List Nat) (j : Nat) (h : j < l.length) :
    (prefixSums l)[j]? = some ((l.take j).sum) := by
  induction l generalizing j with
  | nil => simp at h
  | cons a as ih =>
      match j with
      | 0 => simp [prefixSums]
      | j + 1 =>
          simp only [prefixSums, List.getElem?_cons_succ, List.getElem?_map,
            List.take_cons, List.sum_cons]
          rw [ih j (by simpa using h)]
          rfl

theorem sum_take_le_sum (l : List Nat) (i : Nat) : (l.take i).sum ≤ l.sum := by
  induction l generalizing i with
  | nil => simp
  | cons a as ih =>
      match i with
      | 0 => simp
      | i + 1 =>
          simp only [List.take_cons, List.sum_cons]
          exact Nat.add_le_add_left (ih i) a

theorem take_sum_mono (l : List Nat) {i j : Nat} (h : i ≤ j) :
    (l.take i).sum ≤ (l.take j).sum := by
  have : (l.take j).take i = l.take i := by
    rw [List.take_take, min_eq_left h]
  rw [← this]
  exact sum_take_le_sum _ _

theorem prefixSums_getLastD (l : List Nat) :
    (prefixSums l).getLastD 0 = (l.take (l.length - 1)).sum := by
  induction l with
  | nil => rfl
  | cons a as ih =>
      match as with
      | [] => simp [prefixSums]
      | b :: bs =>
          obtain ⟨x, hx⟩ : ∃ x, (prefixSums (b :: bs)).getLast? = some x := by
            have hne : prefixSums (b :: bs) ≠ [] := by
              intro hc
              have hl := congrArg List.length hc
              rw [prefixSums_length] at hl
              simp at hl
            exact Option.isSome_iff_exists.mp (List.getLast?_isSome.mpr hne)
          have hx2 : x = ((b :: bs).take ((b :: bs).length - 1)).sum := by
            have h2 := ih
            rw [List.getLastD_eq_getLast?, hx] at h2
            simpa using h2
          show (0 :: (prefixSums (b :: bs)).map (a + ·)).getLastD 0 = _
          rw [List.getLastD_cons, List.getLastD_eq_getLast?, List.getLast?_map,
            hx]
          show a + x = _
          rw [hx2]
          simp only [List.length_cons, Nat.add_sub_cancel,
            List.take_succ_cons, List.sum_cons]

theorem take_sum_le_prefixSums_getLastD (l : List Nat) (j : Nat)
    (hj : j < l.length) :
    (l.take j).sum ≤ (prefixSums l).getLastD 0 := by
  rw [prefixSums_getLastD]
  exact take_sum_mono l (by omega)

/-! ### Reads/ReadsB composition and writer-shape lemmas -/

theorem Reads.toB {m : RM α} {X : List Nat} {a : α} (h : Reads m X a) :
    ReadsB m X a := fun P S _ => h P S

theorem ReadsB.bindB {m : RM α} {f : α → RM β} {X Y : List Nat} {a : α} {b : β}
    (h₁ : ReadsB m X a) (h₂ : ReadsB (f a) Y b) :
    ReadsB (m >>= f) (X ++ Y) b := by
  intro P S hsz
  rw [List.length_append] at hsz
  have e₁ : P ++ ((X ++ Y) ++ S) = P ++ (X ++ (Y ++ S)) := by
    simp [List.append_assoc]
  have e₂ : P ++ (X ++ (Y ++ S)) = (P ++ X) ++ (Y ++ S) := by
    simp [List.append_assoc]
  have hfa := h₂ (P ++ X) S (by rw [List.length_append]; omega)
  rw [List.length_append] at hfa
  show (match m (P ++ ((X ++ Y) ++ S)) P.length with
        | .ok (a, q) => f a (P ++ ((X ++ Y) ++ S)) q
        | .error e => .error e) = Except.ok (b, P.length + (X ++ Y).length)
  rw [e₁, h₁ P (Y ++ S) (by omega)]
  show f a (P ++ (X ++ (Y ++ S))) (P.length + X.length) = _
  rw [e₂, hfa, List.length_append, Nat.add_assoc]

theorem writeValList_eq_map (es : List Val) :
    writeValList es = es.map writeVal := by
  induction es with
  | nil => rfl
  | cons v vs ih => simp [writeValList, ih]

theorem writePairs_eq_map (kvs : List (List Nat × Val)) :
    writePairs kvs = kvs.map (fun kv => (kv.1, writeVal kv.2)) := by
  induction kvs with
  | nil => rfl
  | cons kv rest ih =>
      match kv with
      | (k, v) => simp [writePairs, ih]

theorem matList_eq_map (es : List Val) : matList es = es.map matVal := by
  induction es with
  | nil => rfl
  | cons v vs ih => simp [matList, ih]

theorem matPairs_eq_map (kvs : List (List Nat × Val)) :
    matPairs kvs = kvs.map (fun kv => (kv.1, matVal kv.2)) := by
  induction kvs with
  | nil => rfl
  | cons kv rest ih =>
      match kv with
      | (k, v) => simp [matPairs, ih]

theorem valOkListB_forall {es : List Val} (h : valOkListB es = true) :
    ∀ v ∈ es, valOkB v = true := by
  induction es with
  | nil => simp
  | cons v vs ih =>
      rw [show valOkListB (v :: vs) = (valOkB v && valOkListB vs) from rfl,
        Bool.and_eq_true] at h
      intro u hu
      rcases List.mem_cons.mp hu with h1 | h1
      · exact h1 ▸ h.1
      · exact ih h.2 u h1

theorem valOkPairsB_forall {kvs : List (List Nat × Val)}
    (h : valOkPairsB kvs = true) :
    ∀ kv ∈ kvs, kv.1.length < 2 ^ 63 ∧ valOkB kv.2 = true := by
  induction kvs with
  | nil => simp
  | cons kv rest ih =>
      match kv with
      | (k, v) =>
          rw [show valOkPairsB ((k, v) :: rest) =
            (decide (k.length < 2 ^ 63) && valOkB v && valOkPairsB rest)
            from rfl, Bool.and_eq_true, Bool.and_eq_true] at h
          intro u hu
          rcases List.mem_cons.mp hu with h1 | h1
          · subst h1
            exact ⟨by simpa using h.1.1, h.1.2⟩
          · exact ih h.2 u h1

theorem markerType_array {w : Nat} (h : w ≤ 8) :
    markerType (newTypeMarker typeArray w) = typeArray := by
  interval_cases w <;> decide

theorem markerOffsetSize_array {w : Nat} (h : w ≤ 8) :
    markerOffsetSize (newTypeMarker typeArray w) = w := by
  interval_cases w <;> decide

theorem markerType_object {w : Nat} (h : w ≤ 8) :
    markerType (newTypeMarker typeObject w) = typeObject := by
  interval_cases w <;> decide

theorem markerOffsetSize_object {w : Nat} (h : w ≤ 8) :
    markerOffsetSize (newTypeMarker typeObject w) = w := by
  interval_cases w <;> decide

theorem reads_readBinaryValue {p : List Nat} (h : p.length < 2 ^ 63) :
    Reads readBinaryValue (writeBinaryValue p) p := by
  unfold readBinaryValue writeBinaryValue
  apply Reads.bind (reads_readUintValue (by omega))
  show Reads (if p.length > 2 ^ 63 - 1 then rmFail Err.format
    else readBytes p.length) p p
  rw [if_neg (by omega)]
  exact Reads.readBytes_exact p

theorem reads_readBoolValue (b : Bool) :
    Reads readBoolValue (writeUintValue (cond b 1 0)) b := by
  unfold readBoolValue
  cases b
  · have hc : Reads ((fun n => if n = 0 then (Pure.pure false : RM Bool)
        else if n = 1 then Pure.pure true else rmFail Err.format) 0) []
        false := by
      show Reads (if (0 : Nat) = 0 then (Pure.pure false : RM Bool)
        else if (0 : Nat) = 1 then Pure.pure true else rmFail Err.format) []
        false
      rw [if_pos rfl]
      exact Reads.pure false
    have hb := Reads.bind (f := fun n => if n = 0 then
        (Pure.pure false : RM Bool) else if n = 1 then Pure.pure true
        else rmFail Err.format)
      (reads_readUintValue (n := 0) (by norm_num)) hc
    simpa using hb
  · have hc : Reads ((fun n => if n = 0 then (Pure.pure false : RM Bool)
        else if n = 1 then Pure.pure true else rmFail Err.format) 1) []
        true := by
      show Reads (if (1 : Nat) = 0 then (Pure.pure false : RM Bool)
        else if (1 : Nat) = 1 then Pure.pure true else rmFail Err.format) []
        true
      rw [if_neg (by omega), if_pos rfl]
      exact Reads.pure true
    have hb := Reads.bind (f := fun n => if n = 0 then
        (Pure.pure false : RM Bool) else if n = 1 then Pure.pure true
        else rmFail Err.format)
      (reads_readUintValue (n := 1) (by norm_num)) hc
    simpa using hb

/-! ### Positional evaluation toolkit -/

theorem RM.bind_ok {α β : Type} {m : RM α} {f : α → RM β} {D : List Nat}
    {p q : Nat} {a : α} (h : m D p = .ok (a, q)) :
    (m >>= f) D p = f a D q := by
  show (match m D p with
        | .ok (a, q) => f a D q
        | .error e => .error e) = f a D q
  rw [h]

theorem readByte_at {D P R : List Nat} {b : Nat} (h : D = P ++ (b :: R)) :
    readByte D P.length = .ok (b, P.length + 1) := by
  subst h
  show (match (P ++ (b :: R))[P.length]? with
        | some c => Except.ok (c, P.length + 1)
        | none => Except.error Err.io) = _
  rw [List.getElem?_append_right (Nat.le_refl _)]
  simp

theorem reads_at {m : RM α} {X : List Nat} {a : α} (h : Reads m X a)
    {D P S : List Nat} {p : Nat} (hD : D = P ++ (X ++ S))
    (hp : p = P.length) :
    m D p = .ok (a, p + X.length) := by
  subst hD hp
  exact h P S

theorem readsB_at {m : RM α} {X : List Nat} {a : α} (h : ReadsB m X a)
    {D P S : List Nat} {p : Nat} (hD : D = P ++ (X ++ S))
    (hp : p = P.length) (hsz : P.length + X.length < 2 ^ 63) :
    m D p = .ok (a, p + X.length) := by
  subst hD hp
  exact h P S hsz

theorem seekTo_at {D : List Nat} {p : Nat} (q : Nat) (h : q < 2 ^ 63) :
    seekTo (wrap64 (q : Int)) D p = .ok ((), q) := by
  rw [wrap64_coe h]
  exact seekTo_nat q D p

/-! ### Writer shape lemmas for containers -/

theorem flatten_map_putLE_length (w : Nat) (xs : List Nat) :
    ((xs.map (putLE w)).flatten).length = w * xs.length := by
  induction xs with
  | nil => simp
  | cons x rest ih =>
      simp only [List.map_cons, List.flatten_cons, List.length_append,
        putLE_length, ih, List.length_cons]
      ring

theorem readFixedUint_table {w : Nat} (h1 : 1 ≤ w) (h8 : w ≤ 8) :
    ∀ (xs : List Nat) (j : Nat) (x : Nat), xs[j]? = some x →
    (∀ y ∈ xs, y < 256 ^ w) → ∀ (Q R : List Nat),
    readFixedUint w (Q ++ ((xs.map (putLE w)).flatten ++ R))
      (Q.length + w * j) = .ok (x, Q.length + w * j + w) := by
  intro xs
  induction xs with
  | nil =>
      intro j x hx
      simp at hx
  | cons y ys ih =>
      intro j x hx hlt Q R
      match j with
      | 0 =>
          simp only [List.getElem?_cons_zero, Option.some_inj] at hx
          subst hx
          have hr := reads_readFixedUint h1 h8
            (hlt y (List.mem_cons_self _ _))
          have := reads_at hr (D := Q ++ (((y :: ys).map (putLE w)).flatten ++ R))
            (P := Q) (S := (ys.map (putLE w)).flatten ++ R)
            (by simp [List.append_assoc]) rfl
          simpa [putLE_length] using this
      | j + 1 =>
          have hx2 : ys[j]? = some x := by simpa using hx
          have hlt2 : ∀ y2 ∈ ys, y2 < 256 ^ w := fun y2 hy2 =>
            hlt y2 (List.mem_cons_of_mem _ hy2)
          have := ih j x hx2 hlt2 (Q ++ putLE w y) R
          rw [List.length_append, putLE_length] at this
          have heq : (Q ++ putLE w y) ++ ((ys.map (putLE w)).flatten ++ R)
              = Q ++ (((y :: ys).map (putLE w)).flatten ++ R) := by
            simp [List.append_assoc]
          rw [heq] at this
          have harith : Q.length + w + w * j = Q.length + w * (j + 1) := by
            ring
          rw [harith] at this
          exact this

theorem flatten_decompose (L : List (List Nat)) (j : Nat) (h : j < L.length) :
    L.flatten = (L.take j).flatten ++ (L[j] ++ (L.drop (j + 1)).flatten) := by
  have h2 := List.take_append_drop j L
  rw [List.drop_eq_getElem_cons h] at h2
  calc L.flatten
      = (List.take j L ++ L[j] :: List.drop (j + 1) L).flatten := by rw [h2]
    _ = (List.take j L).flatten ++ (L[j] ++ (List.drop (j + 1) L).flatten) := by
        rw [List.flatten_append, List.flatten_cons]

theorem flatten_take_length (L : List (List Nat)) (j : Nat) :
    ((L.take j).flatten).length = ((L.map List.length).take j).sum := by
  rw [List.length_flatten, ← List.map_take]

end Hashive
